import Mathlib

/-!
Verification of the deduplication core of popcorn_data_utils
(src/cleaning_utils.py, called from src/create_keyword_dataset.py).

The Python code is shallowly embedded: Python dicts (insertion ordered,
value replacement keeps key position) become association lists, Python
lists become Lean lists, and the two external libraries (hashlib and
datasketch) are modelled from the spec, as noted on each definition.
-/

namespace CleaningUtils

/-- A document record as consumed by cleaning_utils.py: a stable id
(uuid), a text body (input) and a recency signal (commit_time). -/
structure Doc where
  uuid : Nat
  input : String
  commit_time : Int
deriving DecidableEq, Repr

/-- Lower-casing of the text body, as in doc["input"].lower() in
create_minhashes; the text is viewed as its sequence of characters. -/
def lowered (s : String) : List Char := s.data.map Char.toLower

/-- One Python-dict update step of remove_duplicates
(src/cleaning_utils.py lines 17-23): if the key is absent the pair is
appended; if present, the stored document is replaced exactly when the
new document has a strictly greater commit_time, keeping the key at its
original position, as a Python dict does. -/
def updateEntry (acc : List (String × Doc)) (k : String) (f : Doc) :
    List (String × Doc) :=
  match acc with
  | [] => [(k, f)]
  | (a, v) :: rest =>
      if a = k then
        if v.commit_time < f.commit_time then (a, f) :: rest
        else (a, v) :: rest
      else (a, v) :: updateEntry rest k f

/-- remove_duplicates (src/cleaning_utils.py lines 13-24): group the
documents by a content digest of their text and keep, per digest, the
document with the strictly greatest commit_time seen so far, returning
the dict values in key insertion order.  The digest hashFn is a
parameter: the source calls hashlib.sha256, an external library,
modelled from the spec as a deterministic content hash. -/
def remove_duplicates (hashFn : String → String) (functions : List Doc) :
    List Doc :=
  (functions.foldl (fun acc f => updateEntry acc (hashFn f.input) f) []).map
    Prod.snd

/-- generate_ngrams (src/cleaning_utils.py lines 53-55): all slices
text[i : i + n] for i in range(len(text) - n + 1), where the Python
range bound len(text) - n + 1 over the integers equals the truncated
natural subtraction (len(text) + 1) - n for every n ≥ 0. -/
def generate_ngrams (text : List Char) (n : Nat) : List (List Char) :=
  (List.range (text.length + 1 - n)).map (fun i => (text.drop i).take n)

/-- The sentinel every signature slot starts from.  Modelled from the
spec: empty shingle sets produce the maximum representable unsigned
value in every slot. -/
def sentinel : Nat := 2 ^ 64 - 1

/-- Modelled from the spec: the datasketch.MinHash signature (an
external library).  Slot i holds the minimum, over all shingles s, of
the i-th hash of s; hash values are reduced to unsigned 64-bit range
and the minimum comparison is unsigned.  The hash family h is a
parameter of the model. -/
def minhashSig (h : Nat → List Char → Nat) (numPerm : Nat)
    (shingles : List (List Char)) : List Nat :=
  (List.range numPerm).map
    (fun i => shingles.foldr (fun s m => min (h i s % 2 ^ 64) m) sentinel)

/-- The signature create_minhashes computes for one document: n-grams of
the lower-cased text, fed to the MinHash model with
num_permutations = rows_per_band * bands. -/
def docSig (h : Nat → List Char → Nat) (ngram_size bands rows_per_band : Nat)
    (d : Doc) : List Nat :=
  minhashSig h (rows_per_band * bands) (generate_ngrams (lowered d.input) ngram_size)

/-- create_minhashes (src/cleaning_utils.py lines 27-72): the mapping
from each document uuid to its MinHash signature, in document order. -/
def create_minhashes (h : Nat → List Char → Nat) (documents : List Doc)
    (ngram_size bands rows_per_band : Nat) : List (Nat × List Nat) :=
  documents.map (fun d => (d.uuid, docSig h ngram_size bands rows_per_band d))

/-- Band b of a signature: the contiguous slice of rows_per_band values
starting at b * rows_per_band.  Modelled from the spec: the LSH index
partitions each signature into bands contiguous slices. -/
def bandOf (sig : List Nat) (rows_per_band b : Nat) : List Nat :=
  (sig.drop (b * rows_per_band)).take rows_per_band

/-- Modelled from the spec: a datasketch.MinHashLSH query (an external
library).  After all entries are inserted, a query returns the ids of
every inserted signature that agrees with the query signature on at
least one band, exact band match being the trigger for candidacy.  The
threshold parameter of the source is informational in the spec and does
not enter the band-match semantics, so it is omitted here. -/
def lshQuery (entries : List (Nat × List Nat)) (num_bands rows_per_band : Nat)
    (q : List Nat) : List Nat :=
  (entries.filter
    (fun e => (List.range num_bands).any
      (fun b => bandOf e.2 rows_per_band b == bandOf q rows_per_band b))).map
    Prod.fst

/-- create_similarity_matrix (src/cleaning_utils.py lines 75-95): insert
every signature, query the index with each document signature, then
remove the document own uuid from its row when present (Python
list.remove drops the first occurrence). -/
def create_similarity_matrix (minhashes : List (Nat × List Nat))
    (rows_per_band num_bands : Nat) : List (Nat × List Nat) :=
  minhashes.map (fun e =>
    let sims := lshQuery minhashes num_bands rows_per_band e.2
    (e.1, if e.1 ∈ sims then sims.erase e.1 else sims))

/-- The inner loop of filter_matrix over one row: scanning the candidate
list, at the first candidate whose tiebreak value strictly exceeds that
of the row id, the first occurrence of the row id is removed from the
accumulated list and the scan stops (the Python break). -/
def scanSims (tb : Nat → Int) (good : List Nat) (x : Nat) :
    List Nat → List Nat
  | [] => good
  | y :: rest => if tb x < tb y then good.erase x else scanSims tb good x rest

/-- filter_matrix (src/cleaning_utils.py lines 113-124): every row id is
appended to good_uuids, then removed again if some candidate in its row
strictly beats it on the tiebreak value.  The Python function wraps the
result in a set; the underlying list is returned here and the claims
are stated through membership. -/
def filter_matrix (sm : List (Nat × List Nat)) (tb : Nat → Int) : List Nat :=
  sm.foldl (fun good p => scanSims tb (good ++ [p.1]) p.1 p.2) []

/-- The uuids_to_commit_time dict comprehension of fuzzy_filter
(src/cleaning_utils.py line 137), as a function: the commit_time of the
last document carrying the uuid (a later duplicate key overwrites), and
an arbitrary default where the Python dict would raise. -/
def uuids_to_commit_time (documents : List Doc) (u : Nat) : Int :=
  (documents.foldl
    (fun acc d => if d.uuid = u then some d.commit_time else acc) none).getD 0

/-- fuzzy_filter (src/cleaning_utils.py lines 127-149): build the
signatures, build the similarity matrix, resolve it with commit_time as
the tiebreak, and keep exactly the input documents whose uuid survived,
in input order. -/
def fuzzy_filter (h : Nat → List Char → Nat) (documents : List Doc)
    (ngram_size bands rows_per_band : Nat) : List Doc :=
  let minhashes := create_minhashes h documents ngram_size bands rows_per_band
  let tb := uuids_to_commit_time documents
  let sm := create_similarity_matrix minhashes rows_per_band bands
  let good := filter_matrix sm tb
  documents.filter (fun d => good.contains d.uuid)

/-- The full pipeline as run by src/create_keyword_dataset.py lines
141-147: the exact-dedup pre-pass followed by the near-duplicate
stage. -/
def dedup_pipeline (hashFn : String → String) (h : Nat → List Char → Nat)
    (documents : List Doc) (ngram_size bands rows_per_band : Nat) :
    List Doc :=
  fuzzy_filter h (remove_duplicates hashFn documents) ngram_size bands
    rows_per_band

/-- First-occurrence lookup in an association list, matching Python dict
lookup on the insertion-ordered representation. -/
def lookupKey (k : String) : List (String × Doc) → Option Doc
  | [] => none
  | (a, v) :: rest => if a = k then some v else lookupKey k rest

/-- The comparison remove_duplicates applies inside one hash group: the
stored document v is replaced by f exactly when f has a strictly
greater commit_time. -/
def betterDoc (v f : Doc) : Doc :=
  if v.commit_time < f.commit_time then f else v

/-- The winner of a hash group, folded left over the group in input
order, starting from an optional already-stored document. -/
def runWinner (o : Option Doc) (g : List Doc) : Option Doc :=
  g.foldl
    (fun acc f =>
      match acc with
      | none => some f
      | some v => some (betterDoc v f)) o

/-- The keep test of filter_matrix on one row: the row id survives when
no candidate in the row strictly beats it on the tiebreak value. -/
def keepRow (tb : Nat → Int) (p : Nat × List Nat) : Bool :=
  ! p.2.any (fun y => decide (tb p.1 < tb y))

/-- A concrete instantiation of the modelled hash family, used for
concrete runs of the pipeline: every slot hashes a shingle to the sum
of its character codes. -/
def charSumHash : Nat → List Char → Nat :=
  fun _ s => s.foldl (fun a c => a + c.toNat) 0

end CleaningUtils

namespace CleaningUtils

lemma lookupKey_updateEntry (acc : List (String × Doc)) (k k₀ : String)
    (f : Doc) :
    lookupKey k₀ (updateEntry acc k f) =
      if k = k₀ then
        (match lookupKey k₀ acc with
          | none => some f
          | some v => some (betterDoc v f))
      else lookupKey k₀ acc := by
  induction acc with
  | nil =>
      simp [updateEntry, lookupKey]
  | cons p rest ih =>
      obtain ⟨a, v⟩ := p
      simp only [updateEntry]
      by_cases hak : a = k
      · subst hak
        by_cases hk0 : a = k₀
        · by_cases hlt : v.commit_time < f.commit_time <;>
            simp [hlt, lookupKey, hk0, betterDoc]
        · by_cases hlt : v.commit_time < f.commit_time <;>
            simp [hlt, lookupKey, hk0]
      · have hka : ¬ k = a := fun h => hak h.symm
        by_cases hk0 : a = k₀
        · subst hk0
          have hkk : ¬ k = a := hka
          simp [hak, lookupKey, hkk]
        · simp [hak, lookupKey, hk0, ih]

lemma keys_updateEntry (acc : List (String × Doc)) (k : String) (f : Doc) :
    (updateEntry acc k f).map Prod.fst =
      if k ∈ acc.map Prod.fst then acc.map Prod.fst
      else acc.map Prod.fst ++ [k] := by
  induction acc with
  | nil => simp [updateEntry]
  | cons p rest ih =>
      obtain ⟨a, v⟩ := p
      simp only [updateEntry]
      by_cases hak : a = k
      · subst hak
        by_cases hlt : v.commit_time < f.commit_time <;> simp [hlt]
      · have hka : ¬ k = a := fun h => hak h.symm
        by_cases hmem : k ∈ rest.map Prod.fst <;>
          simp [hak, hka, hmem, ih]

lemma nodup_keys_updateEntry (acc : List (String × Doc)) (k : String)
    (f : Doc) (h : (acc.map Prod.fst).Nodup) :
    ((updateEntry acc k f).map Prod.fst).Nodup := by
  rw [keys_updateEntry]
  by_cases hmem : k ∈ acc.map Prod.fst
  · simpa [hmem] using h
  · simpa [hmem] using List.Nodup.append h (List.nodup_singleton k)
      (by simpa using fun hx => hmem hx)

lemma values_updateEntry (acc : List (String × Doc)) (k : String) (f : Doc)
    (v : Doc) (h : v ∈ (updateEntry acc k f).map Prod.snd) :
    v = f ∨ v ∈ acc.map Prod.snd := by
  induction acc with
  | nil => simpa [updateEntry] using h
  | cons p rest ih =>
      obtain ⟨a, w⟩ := p
      simp only [updateEntry] at h
      by_cases hak : a = k
      · subst hak
        by_cases hlt : w.commit_time < f.commit_time <;>
          · simp only [hlt, if_true, if_false, List.map_cons,
              List.mem_cons] at h ⊢
            tauto
      · simp only [hak, if_false, List.map_cons, List.mem_cons] at h
        rcases h with h | h
        · right; simp [h]
        · rcases ih h with h | h
          · left; exact h
          · right; simp [h]

lemma betterDoc_cases (v f : Doc) : betterDoc v f = v ∨ betterDoc v f = f := by
  unfold betterDoc
  split_ifs <;> simp

lemma le_betterDoc_left (v f : Doc) :
    v.commit_time ≤ (betterDoc v f).commit_time := by
  unfold betterDoc
  split_ifs with h
  · exact le_of_lt h
  · exact le_refl _

lemma le_betterDoc_right (v f : Doc) :
    f.commit_time ≤ (betterDoc v f).commit_time := by
  unfold betterDoc
  split_ifs with h
  · exact le_refl _
  · exact le_of_not_lt h

lemma runWinner_cons (o : Option Doc) (f : Doc) (g : List Doc) :
    runWinner o (f :: g) =
      runWinner
        (match o with
          | none => some f
          | some v => some (betterDoc v f)) g := by
  simp [runWinner]

lemma runWinner_some_spec (g : List Doc) :
    ∀ v : Doc, ∃ w, runWinner (some v) g = some w ∧ (w = v ∨ w ∈ g) ∧
      v.commit_time ≤ w.commit_time ∧
      ∀ x ∈ g, x.commit_time ≤ w.commit_time := by
  induction g with
  | nil =>
      intro v
      exact ⟨v, by simp [runWinner], Or.inl rfl, le_refl _, by simp⟩
  | cons f rest ih =>
      intro v
      obtain ⟨w, hw, hmem, hle, hall⟩ := ih (betterDoc v f)
      refine ⟨w, ?_, ?_, ?_, ?_⟩
      · rw [runWinner_cons]
        exact hw
      · rcases hmem with h | h
        · rcases betterDoc_cases v f with hb | hb
          · exact Or.inl (h.trans hb)
          · exact Or.inr (by simp [h.trans hb])
        · exact Or.inr (by simp [h])
      · exact le_trans (le_betterDoc_left v f) hle
      · intro x hx
        rcases List.mem_cons.mp hx with h | h
        · subst h
          exact le_trans (le_betterDoc_right v x) hle
        · exact hall x h

lemma runWinner_none_spec (g : List Doc) (w : Doc)
    (h : runWinner none g = some w) :
    w ∈ g ∧ ∀ x ∈ g, x.commit_time ≤ w.commit_time := by
  cases g with
  | nil => simp [runWinner] at h
  | cons f rest =>
      rw [runWinner_cons] at h
      obtain ⟨w₂, hw₂, hmem, hle, hall⟩ := runWinner_some_spec rest f
      rw [hw₂] at h
      obtain rfl : w₂ = w := Option.some.inj h
      constructor
      · rcases hmem with h | h
        · simp [h]
        · simp [h]
      · intro x hx
        rcases List.mem_cons.mp hx with h | h
        · subst h
          exact hle
        · exact hall x h

lemma runWinner_fixed (g : List Doc) (v : Doc)
    (h : ∀ x ∈ g, x.commit_time ≤ v.commit_time) :
    runWinner (some v) g = some v := by
  induction g with
  | nil => simp [runWinner]
  | cons f rest ih =>
      rw [runWinner_cons]
      have hf : betterDoc v f = v := by
        unfold betterDoc
        have := h f (by simp)
        simp [not_lt_of_ge this]
      show runWinner (some (betterDoc v f)) rest = some v
      rw [hf]
      exact ih fun x hx => h x (by simp [hx])

lemma foldl_lookup (hashFn : String → String) (fns : List Doc) :
    ∀ (acc : List (String × Doc)) (k : String),
      lookupKey k
          (fns.foldl (fun acc f => updateEntry acc (hashFn f.input) f) acc) =
        runWinner (lookupKey k acc)
          (fns.filter (fun f => hashFn f.input == k)) := by
  induction fns with
  | nil =>
      intro acc k
      simp [runWinner]
  | cons f rest ih =>
      intro acc k
      simp only [List.foldl_cons, List.filter_cons]
      by_cases hk : hashFn f.input = k
      · have hbeq : (hashFn f.input == k) = true := by simp [hk]
        rw [ih, lookupKey_updateEntry, if_pos hk, if_pos hbeq,
          runWinner_cons]
      · have hbeq : (hashFn f.input == k) = false := by simp [hk]
        rw [ih, lookupKey_updateEntry, if_neg hk, hbeq]
        simp

lemma fold_keys_nodup (hashFn : String → String) (fns : List Doc) :
    ∀ acc : List (String × Doc), (acc.map Prod.fst).Nodup →
      (((fns.foldl (fun acc f => updateEntry acc (hashFn f.input) f) acc)).map
        Prod.fst).Nodup := by
  induction fns with
  | nil => intro acc h; simpa using h
  | cons f rest ih =>
      intro acc h
      exact ih _ (nodup_keys_updateEntry acc _ f h)

lemma mem_updateEntry (acc : List (String × Doc)) (k : String) (f : Doc)
    (p : String × Doc) (h : p ∈ updateEntry acc k f) :
    p ∈ acc ∨ p = (k, f) := by
  induction acc with
  | nil => simpa [updateEntry] using h
  | cons q rest ih =>
      obtain ⟨a, v⟩ := q
      simp only [updateEntry] at h
      by_cases hak : a = k
      · subst hak
        by_cases hlt : v.commit_time < f.commit_time <;>
          · simp only [hlt, if_true, if_false, List.mem_cons] at h ⊢
            tauto
      · simp only [hak, if_false, List.mem_cons] at h
        rcases h with h | h
        · exact Or.inl (by simp [h])
        · rcases ih h with h | h
          · exact Or.inl (by simp [h])
          · exact Or.inr h

lemma fold_key_consistent (hashFn : String → String) (fns : List Doc) :
    ∀ acc : List (String × Doc), (∀ p ∈ acc, p.1 = hashFn p.2.input) →
      ∀ p ∈ fns.foldl (fun acc f => updateEntry acc (hashFn f.input) f) acc,
        p.1 = hashFn p.2.input := by
  induction fns with
  | nil => intro acc h; simpa using h
  | cons f rest ih =>
      intro acc h
      refine ih _ ?_
      intro p hp
      rcases mem_updateEntry acc _ f p hp with hmem | hmem
      · exact h p hmem
      · simp [hmem]

lemma fold_values_mem (hashFn : String → String) (fns : List Doc) :
    ∀ (acc : List (String × Doc)) (v : Doc),
      v ∈ ((fns.foldl (fun acc f => updateEntry acc (hashFn f.input) f)
        acc)).map Prod.snd →
      v ∈ acc.map Prod.snd ∨ v ∈ fns := by
  induction fns with
  | nil => intro acc v h; simpa using h
  | cons f rest ih =>
      intro acc v h
      rcases ih _ v h with h | h
      · rcases values_updateEntry acc _ f v h with h | h
        · exact Or.inr (by simp [h])
        · exact Or.inl h
      · exact Or.inr (by simp [h])

lemma lookupKey_mem (l : List (String × Doc)) (k : String) (v : Doc)
    (h : lookupKey k l = some v) : (k, v) ∈ l := by
  induction l with
  | nil => simp [lookupKey] at h
  | cons p rest ih =>
      obtain ⟨a, w⟩ := p
      simp only [lookupKey] at h
      by_cases hak : a = k
      · subst hak
        simp only [if_pos rfl] at h
        obtain rfl := Option.some.inj h
        simp
      · simp only [hak, if_false] at h
        exact List.mem_cons_of_mem _ (ih h)

lemma mem_values_lookup (l : List (String × Doc))
    (hnd : (l.map Prod.fst).Nodup) (v : Doc) (h : v ∈ l.map Prod.snd) :
    ∃ k, lookupKey k l = some v := by
  induction l with
  | nil => simp at h
  | cons p rest ih =>
      obtain ⟨a, w⟩ := p
      have hnd₂ : (a :: rest.map Prod.fst).Nodup := by simpa using hnd
      simp only [List.map_cons, List.mem_cons] at h
      rcases h with h | h
      · exact ⟨a, by simp [lookupKey, h]⟩
      · obtain ⟨k, hk⟩ := ih hnd₂.of_cons h
        have hkmem : k ∈ rest.map Prod.fst := by
          have := lookupKey_mem rest k v hk
          exact List.mem_map.mpr ⟨(k, v), this, rfl⟩
        have hak : ¬ a = k := by
          intro hEq
          subst hEq
          exact (List.nodup_cons.mp hnd₂).1 hkmem
        exact ⟨k, by simp [lookupKey, hak, hk]⟩

lemma rd_mem_input (hashFn : String → String) (fns : List Doc) (a : Doc)
    (h : a ∈ remove_duplicates hashFn fns) : a ∈ fns := by
  unfold remove_duplicates at h
  rcases fold_values_mem hashFn fns [] a h with h | h
  · simp at h
  · exact h

lemma rd_entry (hashFn : String → String) (fns : List Doc) (a : Doc)
    (h : a ∈ remove_duplicates hashFn fns) :
    lookupKey (hashFn a.input)
        (fns.foldl (fun acc f => updateEntry acc (hashFn f.input) f) []) =
      some a := by
  unfold remove_duplicates at h
  obtain ⟨k, hk⟩ :=
    mem_values_lookup _ (fold_keys_nodup hashFn fns [] (by simp)) a h
  have hcons :=
    fold_key_consistent hashFn fns [] (by simp) (k, a) (lookupKey_mem _ _ _ hk)
  simp only at hcons
  rw [← hcons]
  exact hk

lemma rd_unique_text (hashFn : String → String) (fns : List Doc) (a b : Doc)
    (ha : a ∈ remove_duplicates hashFn fns)
    (hb : b ∈ remove_duplicates hashFn fns) (heq : a.input = b.input) :
    a = b := by
  have h₁ := rd_entry hashFn fns a ha
  have h₂ := rd_entry hashFn fns b hb
  rw [heq] at h₁
  exact Option.some.inj (h₁.symm.trans h₂)

lemma rd_max_commit (hashFn : String → String) (fns : List Doc) (a g : Doc)
    (ha : a ∈ remove_duplicates hashFn fns) (hg : g ∈ fns)
    (heq : g.input = a.input) : g.commit_time ≤ a.commit_time := by
  have h₁ := rd_entry hashFn fns a ha
  rw [foldl_lookup] at h₁
  simp only [lookupKey] at h₁
  refine (runWinner_none_spec _ _ h₁).2 g ?_
  simp only [List.mem_filter, beq_iff_eq]
  exact ⟨hg, by simp [heq]⟩

lemma rd_first_mem (hashFn : String → String)
    (hinj : Function.Injective hashFn) (pre post : List Doc) (d : Doc)
    (hfirst : ∀ g ∈ pre, g.input ≠ d.input)
    (hmax : ∀ g ∈ post, g.input = d.input → g.commit_time ≤ d.commit_time) :
    d ∈ remove_duplicates hashFn (pre ++ d :: post) := by
  have hlook : lookupKey (hashFn d.input)
      ((pre ++ d :: post).foldl
        (fun acc f => updateEntry acc (hashFn f.input) f) []) = some d := by
    rw [foldl_lookup]
    simp only [lookupKey]
    rw [List.filter_append]
    have hpre : pre.filter (fun f => hashFn f.input == hashFn d.input) = [] := by
      rw [List.filter_eq_nil_iff]
      intro g hg
      simp only [beq_iff_eq]
      intro hEq
      exact hfirst g hg (hinj hEq)
    rw [hpre, List.nil_append, List.filter_cons,
      if_pos (by simp : (hashFn d.input == hashFn d.input) = true),
      runWinner_cons]
    show runWinner (some d)
        (post.filter fun f => hashFn f.input == hashFn d.input) = some d
    apply runWinner_fixed
    intro x hx
    simp only [List.mem_filter, beq_iff_eq] at hx
    exact hmax x hx.1 (hinj hx.2)
  unfold remove_duplicates
  exact List.mem_map.mpr ⟨(hashFn d.input, d), lookupKey_mem _ _ _ hlook, rfl⟩

/-- C2: for every content hash and input batch, after the exact-dedup
pre-pass (remove_duplicates) every survivor comes from the input, at
most one document survives per distinct text content, and each survivor
has the maximum commit_time among the input documents sharing its
text. -/
theorem c2_exact_dedup_prepass (hashFn : String → String) (fns : List Doc) :
    (∀ a ∈ remove_duplicates hashFn fns, a ∈ fns) ∧
    (∀ a ∈ remove_duplicates hashFn fns, ∀ b ∈ remove_duplicates hashFn fns,
      a.input = b.input → a = b) ∧
    (∀ a ∈ remove_duplicates hashFn fns, ∀ g ∈ fns,
      g.input = a.input → g.commit_time ≤ a.commit_time) :=
  ⟨fun a ha => rd_mem_input hashFn fns a ha,
   fun a ha b hb h => rd_unique_text hashFn fns a b ha hb h,
   fun a ha g hg h => rd_max_commit hashFn fns a g ha hg h⟩

/-- Witness for C2 on a concrete batch of two byte-identical documents:
the one with the greater commit_time survives and dominates the
group. -/
theorem c2_exact_dedup_prepass_witness :
    (⟨2, "a", 20⟩ : Doc) ∈ remove_duplicates id [⟨1, "a", 10⟩, ⟨2, "a", 20⟩] ∧
    (Doc.mk 1 "a" 10).commit_time ≤ (Doc.mk 2 "a" 20).commit_time :=
  ⟨by decide,
   (c2_exact_dedup_prepass id [⟨1, "a", 10⟩, ⟨2, "a", 20⟩]).2.2
     ⟨2, "a", 20⟩ (by decide) ⟨1, "a", 10⟩ (by decide) rfl⟩

/-- C10: when the first input occurrence of a text has a commit_time at
least as great as every later occurrence of the same text (ties
included), remove_duplicates keeps exactly that first occurrence for
the group: a later entry with an equal commit_time never displaces the
stored representative. -/
theorem c10_tie_keeps_earliest (hashFn : String → String)
    (hinj : Function.Injective hashFn) (pre post : List Doc) (d : Doc)
    (hfirst : ∀ g ∈ pre, g.input ≠ d.input)
    (hmax : ∀ g ∈ post, g.input = d.input → g.commit_time ≤ d.commit_time) :
    d ∈ remove_duplicates hashFn (pre ++ d :: post) ∧
    ∀ s ∈ remove_duplicates hashFn (pre ++ d :: post),
      s.input = d.input → s = d := by
  have hmem := rd_first_mem hashFn hinj pre post d hfirst hmax
  exact ⟨hmem, fun s hs h =>
    rd_unique_text hashFn _ s d hs hmem h⟩

/-- Witness for C10: two documents with identical text and equal
commit_time; the earlier one survives. -/
theorem c10_tie_keeps_earliest_witness :
    (⟨2, "a", 5⟩ : Doc) ∈
      remove_duplicates id ([⟨1, "b", 7⟩] ++ ⟨2, "a", 5⟩ :: [⟨3, "a", 5⟩]) :=
  (c10_tie_keeps_earliest id Function.injective_id [⟨1, "b", 7⟩]
    [⟨3, "a", 5⟩] ⟨2, "a", 5⟩ (by decide) (by decide)).1

lemma scanSims_eq (tb : Nat → Int) (good : List Nat) (x : Nat)
    (sims : List Nat) :
    scanSims tb good x sims =
      if sims.any (fun y => decide (tb x < tb y)) then good.erase x
      else good := by
  induction sims with
  | nil => simp [scanSims]
  | cons y rest ih =>
      simp only [scanSims, List.any_cons]
      by_cases h : tb x < tb y
      · simp [h]
      · simp [h, ih]

lemma filter_matrix_foldl (tb : Nat → Int) (sm : List (Nat × List Nat)) :
    ∀ acc : List Nat, (∀ k ∈ sm.map Prod.fst, k ∉ acc) →
      (sm.map Prod.fst).Nodup →
      sm.foldl (fun good p => scanSims tb (good ++ [p.1]) p.1 p.2) acc =
        acc ++ (sm.filter (keepRow tb)).map Prod.fst := by
  induction sm with
  | nil =>
      intro acc _ _
      simp
  | cons p rest ih =>
      intro acc hdis hnd
      have hnd₂ : (p.1 :: rest.map Prod.fst).Nodup := by simpa using hnd
      have hx : p.1 ∉ acc := hdis p.1 (by simp)
      simp only [List.foldl_cons, List.filter_cons]
      rw [scanSims_eq]
      by_cases hany : (p.2.any fun y => decide (tb p.1 < tb y)) = true
      · have hkeep : keepRow tb p = false := by
          simp [keepRow, hany]
        have herase : (acc ++ [p.1]).erase p.1 = acc := by
          rw [List.erase_append_right _ hx, List.erase_cons_head]
          simp
        rw [if_pos hany, herase, hkeep]
        simp only [Bool.false_eq_true, if_false]
        exact ih acc (fun k hk => hdis k (by simp [hk])) hnd₂.of_cons
      · have hkeep : keepRow tb p = true := by
          simpa [keepRow] using hany
        have hdis₂ : ∀ k ∈ rest.map Prod.fst, k ∉ acc ++ [p.1] := by
          intro k hk
          simp only [List.mem_append, List.mem_singleton]
          rintro (h | h)
          · exact hdis k (by simp [hk]) h
          · subst h
            exact (List.nodup_cons.mp hnd₂).1 hk
        rw [if_neg hany, hkeep]
        simp only [if_true]
        rw [ih (acc ++ [p.1]) hdis₂ hnd₂.of_cons]
        simp

lemma filter_matrix_eq (tb : Nat → Int) (sm : List (Nat × List Nat))
    (hnd : (sm.map Prod.fst).Nodup) :
    filter_matrix sm tb = (sm.filter (keepRow tb)).map Prod.fst := by
  unfold filter_matrix
  simpa using filter_matrix_foldl tb sm [] (by simp) hnd

/-- C1: the Cluster Resolver (filter_matrix) keeps a row id x exactly
when no candidate y in its row has a strictly greater tiebreak value,
evaluated independently per row with no transitive closure; the only
ambient assumption is the Python-dict invariant that row keys are
distinct. -/
theorem c1_cluster_resolver_keep_iff (sm : List (Nat × List Nat))
    (tb : Nat → Int) (x : Nat) (row : List Nat)
    (hnd : (sm.map Prod.fst).Nodup) (hmem : (x, row) ∈ sm) :
    x ∈ filter_matrix sm tb ↔ ¬ ∃ y ∈ row, tb x < tb y := by
  rw [filter_matrix_eq tb sm hnd]
  constructor
  · intro hx hex
    obtain ⟨p, hp, hpx⟩ := List.mem_map.mp hx
    have hpf := List.mem_filter.mp hp
    have hpq : p = (x, row) := by
      have := List.inj_on_of_nodup_map hnd hpf.1 hmem
      exact Prod.ext (by simpa using hpx) (by
        have h2 := this (by simpa using hpx)
        simp [h2])
    rw [hpq] at hpf
    have := hpf.2
    simp only [keepRow, Bool.not_eq_true', List.any_eq_false,
      decide_eq_true_eq] at this
    obtain ⟨y, hy, hlt⟩ := hex
    exact this y hy hlt
  · intro hno
    refine List.mem_map.mpr ⟨(x, row), List.mem_filter.mpr ⟨hmem, ?_⟩, rfl⟩
    simp only [keepRow, Bool.not_eq_true', List.any_eq_false,
      decide_eq_true_eq]
    intro y hy hlt
    exact hno ⟨y, hy, hlt⟩

/-- Witness for C1 on a concrete three-row similarity matrix with the
identity tiebreak: row id 2 is kept because its only candidate, id 1,
does not beat it. -/
theorem c1_cluster_resolver_keep_iff_witness :
    2 ∈ filter_matrix [(1, [2]), (2, [1]), (3, [])] (fun u => (u : Int)) :=
  (c1_cluster_resolver_keep_iff [(1, [2]), (2, [1]), (3, [])]
    (fun u => (u : Int)) 2 [1] (by decide) (by decide)).mpr (by decide)

lemma generate_ngrams_sound (t : List Char) (n : Nat) (hn : 1 ≤ n)
    (s : List Char) (h : s ∈ generate_ngrams t n) :
    s.length = n ∧ ∃ pre post, t = pre ++ s ++ post := by
  unfold generate_ngrams at h
  obtain ⟨i, hi, rfl⟩ := List.mem_map.mp h
  rw [List.mem_range] at hi
  have hin : i + n ≤ t.length := by omega
  constructor
  · rw [List.length_take, List.length_drop]
    omega
  · refine ⟨t.take i, t.drop (i + n), ?_⟩
    conv_lhs => rw [← List.take_append_drop i t]
    rw [List.append_assoc]
    congr 1
    conv_lhs => rw [← List.take_append_drop n (t.drop i)]
    congr 1
    rw [List.drop_drop]

lemma generate_ngrams_complete (t s pre post : List Char) (n : Nat)
    (h : t = pre ++ s ++ post) (hlen : s.length = n) :
    s ∈ generate_ngrams t n := by
  unfold generate_ngrams
  refine List.mem_map.mpr ⟨pre.length, ?_, ?_⟩
  · rw [List.mem_range]
    subst h
    simp only [List.length_append]
    omega
  · subst h
    rw [List.append_assoc, List.drop_left, ← hlen, List.take_left]

lemma generate_ngrams_short (t : List Char) (n : Nat) (h : t.length < n) :
    generate_ngrams t n = [] := by
  unfold generate_ngrams
  have hz : t.length + 1 - n = 0 := by omega
  rw [hz]
  simp

/-- C6: for every text and every positive n, the shingling step applied
to the lower-cased text produces exactly the contiguous length-n
substrings of that lower-cased character sequence, and produces nothing
when the text is shorter than n. -/
theorem c6_shingles_are_ngrams (text : String) (n : Nat) (hn : 1 ≤ n) :
    (∀ s ∈ generate_ngrams (lowered text) n,
      s.length = n ∧ ∃ pre post, lowered text = pre ++ s ++ post) ∧
    (∀ pre s post, lowered text = pre ++ s ++ post → s.length = n →
      s ∈ generate_ngrams (lowered text) n) ∧
    ((lowered text).length < n → generate_ngrams (lowered text) n = []) :=
  ⟨fun s hs => generate_ngrams_sound (lowered text) n hn s hs,
   fun pre s post h hlen =>
    generate_ngrams_complete (lowered text) s pre post n h hlen,
   fun h => generate_ngrams_short (lowered text) n h⟩

/-- Witness for C6: the substring ab of the lower-cased AbC is produced
as a 2-gram. -/
theorem c6_shingles_are_ngrams_witness :
    ['a', 'b'] ∈ generate_ngrams (lowered "AbC") 2 :=
  (c6_shingles_are_ngrams "AbC" 2 (by decide)).2.1 [] ['a', 'b'] ['c']
    (by decide) rfl

lemma lshQuery_nodup (entries : List (Nat × List Nat))
    (num_bands rows_per_band : Nat) (q : List Nat)
    (hnd : (entries.map Prod.fst).Nodup) :
    (lshQuery entries num_bands rows_per_band q).Nodup := by
  unfold lshQuery
  exact List.Sublist.nodup (List.Sublist.map Prod.fst
    (List.filter_sublist entries)) hnd

/-- C5: the Similarity Graph Builder never leaves a document own id in
its candidate row: under the dict invariant that the inserted uuids are
distinct, every row of create_similarity_matrix excludes its own
key. -/
theorem c5_self_exclusion (minhashes : List (Nat × List Nat))
    (rows_per_band num_bands : Nat)
    (hnd : (minhashes.map Prod.fst).Nodup) (u : Nat) (row : List Nat)
    (h : (u, row) ∈ create_similarity_matrix minhashes rows_per_band num_bands) :
    u ∉ row := by
  unfold create_similarity_matrix at h
  obtain ⟨e, he, heq⟩ := List.mem_map.mp h
  simp only [Prod.mk.injEq] at heq
  obtain ⟨h₁, h₂⟩ := heq
  subst h₁
  subst h₂
  have hq : (lshQuery minhashes num_bands rows_per_band e.2).Nodup :=
    lshQuery_nodup minhashes num_bands rows_per_band e.2 hnd
  by_cases hc : e.1 ∈ lshQuery minhashes num_bands rows_per_band e.2
  · rw [if_pos hc]
    intro hcontra
    exact (hq.mem_erase_iff.mp hcontra).1 rfl
  · rw [if_neg hc]
    exact hc

/-- Witness for C5: two one-slot signatures that collide; each row drops
its own id. -/
theorem c5_self_exclusion_witness : 1 ∉ ([2] : List Nat) :=
  c5_self_exclusion [(1, [0]), (2, [0])] 1 1 (by decide) 1 [2] (by decide)

lemma docSig_congr (h : Nat → List Char → Nat)
    (ngram_size bands rows_per_band : Nat) (d₁ d₂ : Doc)
    (ht : lowered d₁.input = lowered d₂.input) :
    docSig h ngram_size bands rows_per_band d₁ =
      docSig h ngram_size bands rows_per_band d₂ := by
  unfold docSig
  rw [ht]

/-- C7: two documents whose lower-cased texts coincide receive the very
same MinHash signature from create_minhashes, for every hash family and
every bands and rows_per_band configuration, so every signature slot
matches between them. -/
theorem c7_identical_text_identical_signature (h : Nat → List Char → Nat)
    (ngram_size bands rows_per_band : Nat) (docs : List Doc) (d₁ d₂ : Doc)
    (h₁ : d₁ ∈ docs) (h₂ : d₂ ∈ docs)
    (ht : lowered d₁.input = lowered d₂.input) :
    ∃ s, (d₁.uuid, s) ∈ create_minhashes h docs ngram_size bands rows_per_band ∧
      (d₂.uuid, s) ∈ create_minhashes h docs ngram_size bands rows_per_band := by
  refine ⟨docSig h ngram_size bands rows_per_band d₁, ?_, ?_⟩
  · exact List.mem_map.mpr ⟨d₁, h₁, rfl⟩
  · rw [docSig_congr h ngram_size bands rows_per_band d₁ d₂ ht]
    exact List.mem_map.mpr ⟨d₂, h₂, rfl⟩

/-- Witness for C7: two documents equal up to case share one signature
entry in create_minhashes. -/
theorem c7_identical_text_identical_signature_witness :
    ∃ s, (1, s) ∈ create_minhashes charSumHash
        [⟨1, "Ab", 10⟩, ⟨2, "aB", 20⟩] 1 1 1 ∧
      (2, s) ∈ create_minhashes charSumHash
        [⟨1, "Ab", 10⟩, ⟨2, "aB", 20⟩] 1 1 1 :=
  c7_identical_text_identical_signature charSumHash 1 1 1
    [⟨1, "Ab", 10⟩, ⟨2, "aB", 20⟩] ⟨1, "Ab", 10⟩ ⟨2, "aB", 20⟩
    (by decide) (by decide) (by decide)

lemma fuzzy_filter_sublist (h : Nat → List Char → Nat)
    (documents : List Doc) (ngram_size bands rows_per_band : Nat) :
    List.Sublist (fuzzy_filter h documents ngram_size bands rows_per_band)
      documents := by
  unfold fuzzy_filter
  exact List.filter_sublist documents

/-- C9: the near-duplicate stage returns the surviving documents as a
subsequence of its input list: survivors appear in the same relative
order as in the input. -/
theorem c9_fuzzy_filter_preserves_order (h : Nat → List Char → Nat)
    (documents : List Doc) (ngram_size bands rows_per_band : Nat) :
    List.Sublist (fuzzy_filter h documents ngram_size bands rows_per_band)
      documents :=
  fuzzy_filter_sublist h documents ngram_size bands rows_per_band

/-- C8: every document returned by the full pipeline is a document of
the input batch, so every kept id belongs to the input batch. -/
theorem c8_kept_set_from_input (hashFn : String → String)
    (h : Nat → List Char → Nat) (documents : List Doc)
    (ngram_size bands rows_per_band : Nat) (d : Doc)
    (hd : d ∈ dedup_pipeline hashFn h documents ngram_size bands
      rows_per_band) : d ∈ documents := by
  unfold dedup_pipeline at hd
  exact rd_mem_input hashFn documents d
    (List.Sublist.mem hd
      (fuzzy_filter_sublist h (remove_duplicates hashFn documents)
        ngram_size bands rows_per_band))

/-- Witness for C8 on a one-document batch. -/
theorem c8_kept_set_from_input_witness :
    (⟨1, "ab", 5⟩ : Doc) ∈ [(⟨1, "ab", 5⟩ : Doc)] :=
  c8_kept_set_from_input id charSumHash [⟨1, "ab", 5⟩] 2 1 1 ⟨1, "ab", 5⟩
    (by decide)

/-- Counterexample for C3: the deduplication entry point raises no
error on the inputs the spec declares invalid.  With ngram_size 0 and
an empty text, and separately with bands 0, fuzzy_filter returns a
normal result instead of failing. -/
theorem c3_counterexample :
    fuzzy_filter charSumHash [⟨1, "", 5⟩] 0 1 1 = [⟨1, "", 5⟩] ∧
    fuzzy_filter charSumHash [⟨1, "a", 5⟩] 1 0 1 = [⟨1, "a", 5⟩] := by
  decide

/-- C3 amended: fuzzy_filter performs no input validation and never
raises: on every batch with ngram_size < 1, an empty document text, or
a zero-length signature configuration it completes normally, returning
a subsequence of the input documents. -/
theorem c3_no_input_validation (h : Nat → List Char → Nat)
    (documents : List Doc) (ngram_size bands rows_per_band : Nat)
    (_hdeg : ngram_size = 0 ∨ (∃ d ∈ documents, d.input = "") ∨
      bands * rows_per_band = 0) :
    List.Sublist (fuzzy_filter h documents ngram_size bands rows_per_band)
      documents :=
  fuzzy_filter_sublist h documents ngram_size bands rows_per_band

/-- Witness for C3 amended: a batch consisting of one empty-text
document with ngram_size 0. -/
theorem c3_no_input_validation_witness :
    List.Sublist (fuzzy_filter charSumHash [⟨1, "", 5⟩] 0 1 1)
      [(⟨1, "", 5⟩ : Doc)] :=
  c3_no_input_validation charSumHash [⟨1, "", 5⟩] 0 1 1 (by decide)

set_option maxRecDepth 100000

/-- C4: the end-to-end scenario of the spec, run with the default LSH
configuration of fuzzy_filter (16 bands of 128 rows), an injective
content hash, and a concrete hash family under which the two distinct
shingle sets receive different band fingerprints: the pre-pass keeps id
2 over id 1, the near-duplicate stage collapses nothing further, and
the pipeline returns exactly the documents with ids 2 and 3. -/
theorem c4_end_to_end_scenario :
    dedup_pipeline id charSumHash
      [⟨1, "abcdefghij", 10⟩, ⟨2, "abcdefghij", 20⟩, ⟨3, "zzzzzzzzzz", 5⟩]
      5 16 128 =
    [⟨2, "abcdefghij", 20⟩, ⟨3, "zzzzzzzzzz", 5⟩] := by
  decide

end CleaningUtils
